import Mathlib

/-!
# Owner-reference reconciliation (`pkg/uor/update.go`)

A shallow embedding of `Update`, `updateFile`, `findOwner`, `read` and `write`
of `pkg/uor/update.go`, followed by the properties proved about them.

External collaborators are explicit data:

* the remote API (`ac.Mapper.RESTMapping`, `ac.Client.Resource(..).Get`) is a pair
  of pure functions held in `ApiClient`; every invocation is recorded in a call log,
* the file tree is the `World`: what `filepath.Walk` visits, what decoding each
  path yields, which writes fail, and the log of the writes performed,
* the report table is the list of the rows appended so far.
-/

namespace uor

/-! ## Library values used by the code -/

/-- A Go `error` value. The only thing the code ever asks of an error is
`errors.IsNotFound(err)`, recorded in `notFound`. -/
structure Error where
  msg : String
  notFound : Bool
deriving DecidableEq, Repr

/-- Models `errors.IsNotFound` of `k8s.io/apimachinery/pkg/api/errors`. -/
def errors.IsNotFound (err : Error) : Bool := err.notFound

/-- Models `schema.GroupVersion`. -/
structure GroupVersion where
  Group : String
  Version : String
deriving DecidableEq, Repr

/-- Models `schema.GroupVersionResource`, the `Resource` field of a REST mapping. -/
structure GroupVersionResource where
  Group : String
  Version : String
  Resource : String
deriving DecidableEq, Repr

/-- Models `schema.ParseGroupVersion` of `k8s.io/apimachinery`: the empty string
and `"/"` give the empty group/version, a string without `/` is a version of the
core group, a string with one `/` is split there, and anything with more than one
`/` is an error (built with `fmt.Errorf`, hence not a not-found error). -/
def schema.ParseGroupVersion (gv : String) : Except Error GroupVersion :=
  if gv.length = 0 ∨ gv = "/" then
    .ok { Group := "", Version := "" }
  else
    match gv.toList.count '/' with
    | 0 => .ok { Group := "", Version := gv }
    | 1 =>
      .ok { Group := String.mk (gv.toList.takeWhile (fun c => c != '/')),
            Version := String.mk ((gv.toList.dropWhile (fun c => c != '/')).drop 1) }
    | _ => .error { msg := "unexpected GroupVersion string: " ++ gv, notFound := false }

/-- Character-level body of `strings.Replace(s, old, new, 1)`: the first
occurrence of `old` in `s` is replaced by `new`; without an occurrence `s` is
returned as it is. -/
def strings.replaceFirst (old new : List Char) : List Char → List Char
  | [] => if old = [] then new else []
  | c :: cs =>
    if old <+: c :: cs then new ++ (c :: cs).drop old.length
    else c :: strings.replaceFirst old new cs

/-- Models `strings.Replace(s, old, new, 1)`. -/
def strings.Replace1 (s old new : String) : String :=
  String.mk (strings.replaceFirst old.toList new.toList s.toList)

/-- Scan of `filepath.Ext` over the reversed path: `acc` holds the characters
already passed, in path order. -/
def filepath.extScan : List Char → List Char → List Char
  | [], _ => []
  | c :: cs, acc =>
    if c = '/' then []
    else if c = '.' then '.' :: acc
    else filepath.extScan cs (c :: acc)

/-- Models `filepath.Ext`: the suffix starting at the last dot of the last path
element, or the empty string. -/
def filepath.Ext (path : String) : String :=
  String.mk (filepath.extScan path.toList.reverse [])

/-! ## Data model -/

/-- Models `v1.OwnerReference`. -/
structure OwnerReference where
  APIVersion : String
  Kind : String
  Name : String
  UID : String
  Controller : Option Bool
  BlockOwnerDeletion : Option Bool
deriving DecidableEq, Repr

/-- Models `unstructured.Unstructured` as far as the code looks into it: the
namespace, the uid, the owner references, and the remaining content, which is
only carried along. -/
structure Unstructured where
  Namespace : String
  UID : String
  OwnerReferences : List OwnerReference
  Body : String
deriving DecidableEq, Repr

def Unstructured.GetNamespace (us : Unstructured) : String := us.Namespace

def Unstructured.GetUID (us : Unstructured) : String := us.UID

def Unstructured.GetOwnerReferences (us : Unstructured) : List OwnerReference :=
  us.OwnerReferences

def Unstructured.SetOwnerReferences (us : Unstructured) (refs : List OwnerReference) :
    Unstructured :=
  { us with OwnerReferences := refs }

/-- The Go map `map[string]*unstructured.Unstructured`: the most recent binding
of a key is the first one in the list. -/
abbrev Owners := List (String × Unstructured)

/-- Map lookup `owners[key]`, with the `ok` flag as `Option`. -/
def Owners.get : Owners → String → Option Unstructured
  | [], _ => none
  | (k, v) :: rest, key => if k = key then some v else Owners.get rest key

/-- Map assignment `owners[key] = owner`. -/
def Owners.set (owners : Owners) (key : String) (owner : Unstructured) : Owners :=
  (key, owner) :: owners

/-- One invocation of the remote API. -/
inductive RemoteCall where
  | mapping (group kind version : String)
  | get (resource : GroupVersionResource) (ns name : String)
deriving DecidableEq, Repr

/-- The part of `client.ApiClient` the code uses: `ac.Mapper.RESTMapping(gk, version)`
reduced to the `Resource` of the mapping it returns, and
`ac.Client.Resource(r).Namespace(ns).Get(ctx, name, ..)`. The remote state is
fixed for the duration of a run. -/
structure ApiClient where
  RESTMapping : (group kind version : String) → Except Error GroupVersionResource
  Get : GroupVersionResource → (ns name : String) → Except Error Unstructured

/-- The part of `types.Config` the code uses: `Target`, `OutputFormat()`, the
result of `Validate()` and the result of `client.NewApiClient(config)`. -/
structure Config where
  Target : String
  OutputFormat : String
  Validate : Option Error
  NewApiClient : Except Error ApiClient

/-- The `tablewriter.Table`: the rows appended so far. -/
abbrev Table := List (List String)

def Table.Append (table : Table) (row : List String) : Table := table ++ [row]

def Table.NumLines (table : Table) : Nat := table.length

/-- The file tree and the logs of a run.

* `tree` is what `filepath.Walk` hands to its callback: an error, or the visited
  entries `(path, isDir)` in traversal order;
* `disk path` is the result of opening and decoding `path`;
* `writeErr path us` is the error of opening `path` for writing or of
  `config.PrintObj(us, f)`, if any;
* `writes` logs the successful writes, `calls` the remote calls, in order.

Decoding what `PrintObj` printed is taken to give back the printed object. -/
structure World where
  tree : Except Error (List (String × Bool))
  disk : String → Except Error Unstructured
  writeErr : String → Unstructured → Option Error
  writes : List (String × Unstructured)
  calls : List RemoteCall

/-! ## The code -/

/-- What `findOwner` returns and does: the returned pair as `result`, the map
after the call, and the remote calls made by the call. -/
structure Found where
  result : Except Error Unstructured
  owners : Owners
  calls : List RemoteCall

/-- The cache key built by `findOwner`. -/
def ownerKey (ref : OwnerReference) (us : Unstructured) : String :=
  us.GetNamespace ++ "#" ++ ref.APIVersion ++ "#" ++ ref.Name

/-- Embedding of `findOwner`. -/
def findOwner (ac : ApiClient) (owners : Owners) (ref : OwnerReference)
    (us : Unstructured) : Found :=
  let key := ownerKey ref us
  match owners.get key with
  | some owner => { result := .ok owner, owners := owners, calls := [] }
  | none =>
    match schema.ParseGroupVersion ref.APIVersion with
    | .error err => { result := .error err, owners := owners, calls := [] }
    | .ok gv =>
      match ac.RESTMapping gv.Group ref.Kind gv.Version with
      | .error err =>
        { result := .error err, owners := owners,
          calls := [.mapping gv.Group ref.Kind gv.Version] }
      | .ok resource =>
        match ac.Get resource us.GetNamespace ref.Name with
        | .error err =>
          { result := .error err, owners := owners,
            calls := [.mapping gv.Group ref.Kind gv.Version,
                      .get resource us.GetNamespace ref.Name] }
        | .ok owner =>
          { result := .ok owner, owners := owners.set key owner,
            calls := [.mapping gv.Group ref.Kind gv.Version,
                      .get resource us.GetNamespace ref.Name] }

/-- Embedding of `read`: open and decode the file. -/
def read (w : World) (file : String) : Except Error Unstructured := w.disk file

/-- Embedding of `write`: open the file truncating it and print the object. -/
def write (file : String) (us : Unstructured) (w : World) : Except Error World :=
  match w.writeErr file us with
  | some err => .error err
  | none =>
    .ok { w with
          disk := fun p => if p = file then .ok us else w.disk p
          writes := w.writes ++ [(file, us)] }

/-- The variables of the loop over the references in `updateFile`: the map
`owners`, the table, the references already visited (as they now stand in
`refs`), the flag `changed`, and the remote calls made. -/
structure LoopState where
  owners : Owners
  table : Table
  refs : List OwnerReference
  changed : Bool
  calls : List RemoteCall

/-- The marker of the last column for a failed resolution. -/
def errMsg (err : Error) : String :=
  if errors.IsNotFound err then "<NOT FOUND>" else "<ERROR>"

/-- One iteration of `for i := range refs` in `updateFile`, on `ref = &refs[i]`. -/
def loopBody (fileName : String) (ac : ApiClient) (us : Unstructured)
    (st : LoopState) (ref : OwnerReference) : LoopState :=
  let found := findOwner ac st.owners ref us
  match found.result with
  | .error err =>
    { owners := found.owners
      table := st.table.Append [fileName, ref.Kind, ref.Name, ref.UID, errMsg err]
      refs := st.refs ++ [ref]
      changed := st.changed
      calls := st.calls ++ found.calls }
  | .ok owner =>
    if ref.UID ≠ owner.GetUID then
      { owners := found.owners
        table := st.table.Append [fileName, ref.Kind, ref.Name, ref.UID, owner.GetUID]
        refs := st.refs ++ [{ ref with UID := owner.GetUID }]
        changed := true
        calls := st.calls ++ found.calls }
    else
      { owners := found.owners
        table := st.table
        refs := st.refs ++ [ref]
        changed := st.changed
        calls := st.calls ++ found.calls }

/-- The loop `for i := range refs` of `updateFile`. -/
def rangeRefs (fileName : String) (ac : ApiClient) (us : Unstructured) :
    List OwnerReference → LoopState → LoopState
  | [], st => st
  | ref :: rest, st => rangeRefs fileName ac us rest (loopBody fileName ac us st ref)

/-- The loop variables on entry to the loop of `updateFile`. -/
def loopInit (w : World) (table : Table) : LoopState :=
  { owners := [], table := table, refs := [], changed := false, calls := w.calls }

/-- Embedding of `updateFile`. An error drops the state, as `Update` returns at
once on it. -/
def updateFile (config : Config) (file : String) (ac : ApiClient) (w : World)
    (table : Table) : Except Error (World × Table) :=
  let fileName := strings.Replace1 file (config.Target ++ "/") ""
  match read w file with
  | .error err => .error err
  | .ok us =>
    let refs := us.GetOwnerReferences
    if refs.length > 0 then
      let st := rangeRefs fileName ac us refs (loopInit w table)
      if st.changed then
        match write file (us.SetOwnerReferences st.refs) { w with calls := st.calls } with
        | .error err => .error err
        | .ok w1 => .ok (w1, st.table)
      else
        .ok ({ w with calls := st.calls }, st.table)
    else
      .ok (w, table)

/-- The loop `for _, file := range files` of `Update`. -/
def rangeFiles (config : Config) (ac : ApiClient) :
    List String → World → Table → Except Error (World × Table)
  | [], w, table => .ok (w, table)
  | file :: rest, w, table =>
    match updateFile config file ac w table with
    | .error err2 => .error err2
    | .ok (w1, table1) => rangeFiles config ac rest w1 table1

/-- What `Update` puts on the console. -/
inductive Console where
  | noChanges
  | rendered (header : List String) (rows : Table)
deriving DecidableEq, Repr

/-- The callback of `filepath.Walk` in `Update`, over all visited entries. -/
def walkFiles (config : Config) (entries : List (String × Bool)) : List String :=
  (entries.filter
    (fun e => !e.2 && decide (filepath.Ext e.1 = "." ++ config.OutputFormat))).map Prod.fst

/-- Embedding of `Update`. -/
def Update (config : Config) (w : World) : Except Error (World × Console) :=
  match config.Validate with
  | some err => .error err
  | none =>
    match w.tree with
    | .error err => .error err
    | .ok entries =>
      let files := walkFiles config entries
      match config.NewApiClient with
      | .error err => .error err
      | .ok ac =>
        let header := ["File", "Owner Kind", "Owner Name", "UID From", "UID To"]
        match rangeFiles config ac files w [] with
        | .error err2 => .error err2
        | .ok (w1, table) =>
          if table.NumLines = 0 then .ok (w1, .noChanges)
          else .ok (w1, .rendered header table)

/-! ## Auxiliary definitions for the proofs -/

/-- Loop variables for a loop started on the map `owners` with nothing recorded. -/
def LoopState.fresh (owners : Owners) : LoopState :=
  { owners := owners, table := [], refs := [], changed := false, calls := [] }

/-- The state `d` of a loop started fresh, replayed on top of `base`. -/
def LoopState.onto (base d : LoopState) : LoopState :=
  { owners := d.owners
    table := base.table ++ d.table
    refs := base.refs ++ d.refs
    changed := base.changed || d.changed
    calls := base.calls ++ d.calls }

/-- File name reported in the rows of `file`: the value of `fileName` in `updateFile`. -/
def fileNameOf (config : Config) (file : String) : String :=
  strings.Replace1 file (config.Target ++ "/") ""

/-- The loop variables of `updateFile` on `file` when its loop, started by
`updateFile` in world `w` with table `table`, has visited the references `visited`. -/
def loopAt (config : Config) (file : String) (ac : ApiClient) (w : World) (table : Table)
    (us : Unstructured) (visited : List OwnerReference) : LoopState :=
  rangeRefs (fileNameOf config file) ac us visited (loopInit w table)

/-- What visiting the references `refs` adds when the loop of `updateFile` on
`file` continues from the map `owners`. -/
def loopAdds (config : Config) (file : String) (ac : ApiClient) (us : Unstructured)
    (owners : Owners) (refs : List OwnerReference) : LoopState :=
  rangeRefs (fileNameOf config file) ac us refs (LoopState.fresh owners)

/-- The part of `updateFile` after its loop, on the final loop variables `st`. -/
def afterLoop (file : String) (us : Unstructured) (w : World) (st : LoopState) :
    Except Error (World × Table) :=
  if st.changed then
    match write file (us.SetOwnerReferences st.refs) { w with calls := st.calls } with
    | .error err => .error err
    | .ok w1 => .ok (w1, st.table)
  else
    .ok ({ w with calls := st.calls }, st.table)

/-- Some reference of the file resolves to an object whose uid differs from the
uid the reference records: the reference after `pre` does, when the loop of
`updateFile` reaches it. -/
def HasCorrection (config : Config) (file : String) (ac : ApiClient) (w : World)
    (table : Table) (us : Unstructured) : Prop :=
  ∃ pre ref post owner, us.OwnerReferences = pre ++ ref :: post ∧
    (findOwner ac (loopAt config file ac w table us pre).owners ref us).result = .ok owner ∧
    ref.UID ≠ owner.UID

/-- Rows the report holds for the references `refs` of one file, following the
specification: visiting the references in declaration order from the map
`owners`, one row with the marker for a reference whose resolution fails, one
row with the new uid for a reference whose owner has another uid, and no row for
a reference whose uid matches. -/
def reportRows (fileName : String) (ac : ApiClient) (us : Unstructured) :
    Owners → List OwnerReference → Table
  | _, [] => []
  | owners, ref :: rest =>
    (match (findOwner ac owners ref us).result with
      | .error err => [[fileName, ref.Kind, ref.Name, ref.UID, errMsg err]]
      | .ok owner =>
        if ref.UID = owner.UID then []
        else [[fileName, ref.Kind, ref.Name, ref.UID, owner.UID]]) ++
      reportRows fileName ac us (findOwner ac owners ref us).owners rest

/-- The file `file` of `disk` needs no correction: it decodes, and the loop of
`updateFile` over its references leaves `changed` unset. -/
def Settled (config : Config) (ac : ApiClient) (disk : String → Except Error Unstructured)
    (file : String) : Prop :=
  ∃ us, disk file = .ok us ∧
    (rangeRefs (fileNameOf config file) ac us us.OwnerReferences
      (LoopState.fresh [])).changed = false

/-! ## Small concrete inputs

A remote holding, in namespace `ns1`, the ReplicaSets `rs-a` and `rs-c`, the
Deployment `web` and the StatefulSet `web`, and a directory `out` of exported
files referring to them. -/

def ownerRef (apiVersion kind name uid : String) : OwnerReference :=
  { APIVersion := apiVersion, Kind := kind, Name := name, UID := uid,
    Controller := some true, BlockOwnerDeletion := none }

def exported (refs : List OwnerReference) : Unstructured :=
  { Namespace := "ns1", UID := "pod-uid", OwnerReferences := refs, Body := "kind: Pod" }

def live (uid : String) : Unstructured :=
  { Namespace := "ns1", UID := uid, OwnerReferences := [], Body := "" }

def notFoundErr : Error := { msg := "not found", notFound := true }

def noMatchErr : Error := { msg := "no matches for kind", notFound := false }

def noFileErr : Error := { msg := "no such file or directory", notFound := false }

def demoClient : ApiClient :=
  { RESTMapping := fun group kind version =>
      if group = "apps" ∧ version = "v1" then
        if kind = "ReplicaSet" then
          .ok { Group := "apps", Version := "v1", Resource := "replicasets" }
        else if kind = "Deployment" then
          .ok { Group := "apps", Version := "v1", Resource := "deployments" }
        else if kind = "StatefulSet" then
          .ok { Group := "apps", Version := "v1", Resource := "statefulsets" }
        else .error noMatchErr
      else .error noMatchErr
    Get := fun r ns name =>
      if ns = "ns1" then
        if r.Resource = "replicasets" ∧ name = "rs-a" then .ok (live "new-uid")
        else if r.Resource = "replicasets" ∧ name = "rs-c" then .ok (live "uid-c")
        else if r.Resource = "deployments" ∧ name = "web" then .ok (live "uid-d")
        else if r.Resource = "statefulsets" ∧ name = "web" then .ok (live "uid-s")
        else .error notFoundErr
      else .error notFoundErr }

def demoConfig : Config :=
  { Target := "out", OutputFormat := "yaml", Validate := none, NewApiClient := .ok demoClient }

/-- A directory `out` holding the given files, all writable. -/
def demoWorld (files : List (String × Unstructured)) : World :=
  { tree := .ok (("out", true) :: files.map (fun f => (f.1, false)))
    disk := fun p =>
      match files.lookup p with
      | some us => .ok us
      | none => .error noFileErr
    writeErr := fun _ _ => none
    writes := []
    calls := [] }

def podRef : OwnerReference := ownerRef "apps/v1" "ReplicaSet" "rs-a" "old-uid"

def podDoc : Unstructured := exported [podRef]

/-- The end-to-end scenario of the specification: `pod.yaml` alone. -/
def podWorld : World := demoWorld [("out/pod.yaml", podDoc)]

/-- Two files of namespace `ns1` referring to the same owner. -/
def twoPodsWorld : World := demoWorld [("out/pod1.yaml", podDoc), ("out/pod2.yaml", podDoc)]

def missingRef : OwnerReference := ownerRef "apps/v1" "ReplicaSet" "rs-gone" "uid-b"

def thirdRef : OwnerReference := ownerRef "apps/v1" "ReplicaSet" "rs-c" "old-c"

/-- Three references, the owner of the second of which does not exist. -/
def threeDoc : Unstructured := exported [podRef, missingRef, thirdRef]

def threeWorld : World := demoWorld [("out/three.yaml", threeDoc)]

def malformedRef : OwnerReference := ownerRef "apps/v1/beta" "ReplicaSet" "rs-a" "old-uid"

/-- A file with a reference whose apiVersion has two slashes, and a second file. -/
def malformedWorld : World :=
  demoWorld [("out/bad.yaml", exported [malformedRef, thirdRef]), ("out/pod.yaml", podDoc)]

def goneDoc : Unstructured := exported [missingRef]

/-- A file whose only owner does not exist remotely. -/
def goneWorld : World := demoWorld [("out/gone.yaml", goneDoc)]

def deployRef : OwnerReference := ownerRef "apps/v1" "Deployment" "web" "uid-d"

def statefulRef : OwnerReference := ownerRef "apps/v1" "StatefulSet" "web" "uid-s"

/-- Two up-to-date references with the same apiVersion and name and different kinds. -/
def webDoc : Unstructured := exported [deployRef, statefulRef]

def webWorld : World := demoWorld [("out/web.yaml", webDoc)]

/-- The same owner referred to twice in one file. -/
def twiceDoc : Unstructured := exported [podRef, thirdRef, podRef]

def twiceWorld : World := demoWorld [("out/twice.yaml", twiceDoc)]

/-- The configuration of `demoConfig` with the target directory written with a
trailing slash. -/
def slashConfig : Config :=
  { Target := "out/", OutputFormat := "yaml", Validate := none, NewApiClient := .ok demoClient }

/-- The directory of `podWorld` as `filepath.Walk` visits it from the root `out/`:
the root as given, and the file under its cleaned joined path. -/
def slashWorld : World :=
  { podWorld with tree := .ok [("out/", true), ("out/pod.yaml", false)] }

/-- The world `podWorld` after one run of `Update`: `pod.yaml` rewritten with the
uid of the live owner, one write and two remote calls logged. -/
def podWorldAfter : World :=
  { podWorld with
    disk := fun p =>
      if p = "out/pod.yaml" then
        .ok (podDoc.SetOwnerReferences [{ podRef with UID := "new-uid" }])
      else podWorld.disk p
    writes := [("out/pod.yaml", podDoc.SetOwnerReferences [{ podRef with UID := "new-uid" }])]
    calls := [.mapping "apps" "ReplicaSet" "v1",
      .get { Group := "apps", Version := "v1", Resource := "replicasets" } "ns1" "rs-a"] }

/-- The error of `schema.ParseGroupVersion` on the apiVersion of `malformedRef`. -/
def malformedErr : Error :=
  { msg := "unexpected GroupVersion string: apps/v1/beta", notFound := false }

/-- The rows of what `Update` printed. -/
def Console.rows : Console → Table
  | .noChanges => []
  | .rendered _ rows => rows

/-! ## Lemmas on the owner map and on `findOwner` -/

/-- The four ways `findOwner` can end, with everything it returns and does. -/
theorem findOwner_cases (ac : ApiClient) (owners : Owners) (ref : OwnerReference)
    (us : Unstructured) :
    (∃ owner, owners.get (ownerKey ref us) = some owner ∧
        findOwner ac owners ref us = { result := .ok owner, owners := owners, calls := [] }) ∨
    (owners.get (ownerKey ref us) = none ∧ ∃ err calls,
        findOwner ac owners ref us = { result := .error err, owners := owners, calls := calls }) ∨
    (owners.get (ownerKey ref us) = none ∧ ∃ owner calls,
        findOwner ac owners ref us =
          { result := .ok owner, owners := owners.set (ownerKey ref us) owner, calls := calls }) := by
  unfold findOwner
  cases hget : owners.get (ownerKey ref us) with
  | some owner => exact Or.inl ⟨owner, rfl, by simp [hget]⟩
  | none =>
    right
    cases hp : schema.ParseGroupVersion ref.APIVersion with
    | error err => exact Or.inl ⟨rfl, err, [], by simp [hget, hp]⟩
    | ok gv =>
      cases hm : ac.RESTMapping gv.Group ref.Kind gv.Version with
      | error err => exact Or.inl ⟨rfl, err, [.mapping gv.Group ref.Kind gv.Version], by simp [hget, hp, hm]⟩
      | ok resource =>
        cases hg : ac.Get resource us.GetNamespace ref.Name with
        | error err => exact Or.inl ⟨rfl, err, [.mapping gv.Group ref.Kind gv.Version,
            .get resource us.GetNamespace ref.Name], by simp [hget, hp, hm, hg]⟩
        | ok owner => exact Or.inr ⟨rfl, owner, [.mapping gv.Group ref.Kind gv.Version,
            .get resource us.GetNamespace ref.Name], by simp [hget, hp, hm, hg]⟩

theorem Owners.get_set_same (owners : Owners) (key : String) (owner : Unstructured) :
    (owners.set key owner).get key = some owner := by
  simp [Owners.set, Owners.get]

theorem Owners.get_set_other (owners : Owners) (key key2 : String) (owner : Unstructured)
    (h : key ≠ key2) : (owners.set key owner).get key2 = owners.get key2 := by
  simp [Owners.set, Owners.get, h]

/-- A failed `findOwner` leaves the map as it was. -/
theorem findOwner_error_owners {ac : ApiClient} {owners : Owners} {ref : OwnerReference}
    {us : Unstructured} {err : Error}
    (h : (findOwner ac owners ref us).result = .error err) :
    (findOwner ac owners ref us).owners = owners := by
  rcases findOwner_cases ac owners ref us with ⟨o, _, e⟩ | ⟨_, e', c, e⟩ | ⟨_, o, c, e⟩
  · rw [e]
  · rw [e]
  · rw [e] at h; cases h

/-- A failed `findOwner` was a miss. -/
theorem findOwner_error_miss {ac : ApiClient} {owners : Owners} {ref : OwnerReference}
    {us : Unstructured} {err : Error}
    (h : (findOwner ac owners ref us).result = .error err) :
    owners.get (ownerKey ref us) = none := by
  rcases findOwner_cases ac owners ref us with ⟨o, _, e⟩ | ⟨hm, _⟩ | ⟨hm, _⟩
  · rw [e] at h; cases h
  · exact hm
  · exact hm

/-- After a successful `findOwner` the map binds the key to the returned object. -/
theorem findOwner_ok_get {ac : ApiClient} {owners : Owners} {ref : OwnerReference}
    {us : Unstructured} {owner : Unstructured}
    (h : (findOwner ac owners ref us).result = .ok owner) :
    (findOwner ac owners ref us).owners.get (ownerKey ref us) = some owner := by
  rcases findOwner_cases ac owners ref us with ⟨o, hg, e⟩ | ⟨_, e', c, e⟩ | ⟨_, o, c, e⟩
  · rw [e] at h ⊢; cases h; exact hg
  · rw [e] at h; cases h
  · rw [e] at h ⊢; cases h; exact Owners.get_set_same _ _ _

/-- A binding of the map survives `findOwner`, whatever reference is looked up. -/
theorem findOwner_get_mono {ac : ApiClient} {owners : Owners} {ref : OwnerReference}
    {us : Unstructured} {key : String} {owner : Unstructured}
    (h : owners.get key = some owner) :
    (findOwner ac owners ref us).owners.get key = some owner := by
  rcases findOwner_cases ac owners ref us with ⟨o, _, e⟩ | ⟨_, e', c, e⟩ | ⟨hm, o, c, e⟩
  · rw [e]; exact h
  · rw [e]; exact h
  · rw [e]
    have hne : ownerKey ref us ≠ key := by
      intro hk; rw [hk, h] at hm; cases hm
    show (owners.set (ownerKey ref us) o).get key = some owner
    rw [Owners.get_set_other _ _ _ _ hne]; exact h

/-- On a hit `findOwner` returns the stored object, keeps the map and calls nothing. -/
theorem findOwner_hit {ac : ApiClient} {owners : Owners} {ref : OwnerReference}
    {us : Unstructured} {owner : Unstructured}
    (h : owners.get (ownerKey ref us) = some owner) :
    findOwner ac owners ref us = { result := .ok owner, owners := owners, calls := [] } := by
  simp [findOwner, h]

/-- The result of `findOwner` on a miss does not depend on the map. -/
theorem findOwner_miss_result {ac : ApiClient} {owners : Owners} {ref : OwnerReference}
    {us : Unstructured} (h : owners.get (ownerKey ref us) = none) :
    (findOwner ac owners ref us).result = (findOwner ac [] ref us).result := by
  cases hp : schema.ParseGroupVersion ref.APIVersion with
  | error err => simp [findOwner, h, hp, Owners.get]
  | ok gv =>
    cases hm : ac.RESTMapping gv.Group ref.Kind gv.Version with
    | error err => simp [findOwner, h, hp, hm, Owners.get]
    | ok resource =>
      cases hg : ac.Get resource us.GetNamespace ref.Name with
      | error err => simp [findOwner, h, hp, hm, hg, Owners.get]
      | ok owner => simp [findOwner, h, hp, hm, hg, Owners.get]

/-- The function `findOwner` looks only at the apiVersion, kind and name of the
reference and at the namespace of the object. -/
theorem findOwner_congr (ac : ApiClient) (owners : Owners) {ref ref2 : OwnerReference}
    {us us2 : Unstructured} (ha : ref.APIVersion = ref2.APIVersion)
    (hk : ref.Kind = ref2.Kind) (hn : ref.Name = ref2.Name)
    (hns : us.Namespace = us2.Namespace) :
    findOwner ac owners ref us = findOwner ac owners ref2 us2 := by
  simp only [findOwner, ownerKey, Unstructured.GetNamespace, ha, hk, hn, hns]

/-! ## Lemmas on the loop over the references -/

theorem loopBody_error {fileName : String} {ac : ApiClient} {us : Unstructured}
    {st : LoopState} {ref : OwnerReference} {err : Error}
    (h : (findOwner ac st.owners ref us).result = .error err) :
    loopBody fileName ac us st ref =
      { owners := st.owners
        table := st.table ++ [[fileName, ref.Kind, ref.Name, ref.UID, errMsg err]]
        refs := st.refs ++ [ref]
        changed := st.changed
        calls := st.calls ++ (findOwner ac st.owners ref us).calls } := by
  simp [loopBody, h, Table.Append, findOwner_error_owners h]

theorem loopBody_ok_ne {fileName : String} {ac : ApiClient} {us : Unstructured}
    {st : LoopState} {ref : OwnerReference} {owner : Unstructured}
    (h : (findOwner ac st.owners ref us).result = .ok owner) (hne : ref.UID ≠ owner.UID) :
    loopBody fileName ac us st ref =
      { owners := (findOwner ac st.owners ref us).owners
        table := st.table ++ [[fileName, ref.Kind, ref.Name, ref.UID, owner.UID]]
        refs := st.refs ++ [{ ref with UID := owner.UID }]
        changed := true
        calls := st.calls ++ (findOwner ac st.owners ref us).calls } := by
  simp [loopBody, h, Table.Append, Unstructured.GetUID, hne]

theorem loopBody_ok_eq {fileName : String} {ac : ApiClient} {us : Unstructured}
    {st : LoopState} {ref : OwnerReference} {owner : Unstructured}
    (h : (findOwner ac st.owners ref us).result = .ok owner) (heq : ref.UID = owner.UID) :
    loopBody fileName ac us st ref =
      { owners := (findOwner ac st.owners ref us).owners
        table := st.table
        refs := st.refs ++ [ref]
        changed := st.changed
        calls := st.calls ++ (findOwner ac st.owners ref us).calls } := by
  simp [loopBody, h, Unstructured.GetUID, heq]

theorem LoopState.onto_assoc (a b c : LoopState) :
    (a.onto b).onto c = a.onto (b.onto c) := by
  simp [LoopState.onto, List.append_assoc, Bool.or_assoc]

theorem loopBody_onto (fileName : String) (ac : ApiClient) (us : Unstructured)
    (st : LoopState) (ref : OwnerReference) :
    loopBody fileName ac us st ref =
      st.onto (loopBody fileName ac us (LoopState.fresh st.owners) ref) := by
  simp only [loopBody, LoopState.fresh, LoopState.onto, Table.Append]
  cases (findOwner ac st.owners ref us).result with
  | error err => simp
  | ok owner =>
    by_cases hne : ref.UID = owner.GetUID <;> simp [hne]

/-- The loop only appends to the table, to the visited references and to the
call log: its state is the state of the loop started fresh on the same map,
replayed on top of the state it started from. -/
theorem rangeRefs_onto (fileName : String) (ac : ApiClient) (us : Unstructured)
    (refs : List OwnerReference) (st : LoopState) :
    rangeRefs fileName ac us refs st =
      st.onto (rangeRefs fileName ac us refs (LoopState.fresh st.owners)) := by
  induction refs generalizing st with
  | nil => simp [rangeRefs, LoopState.onto, LoopState.fresh]
  | cons ref rest ih =>
    simp only [rangeRefs]
    rw [ih (loopBody fileName ac us st ref),
      ih (loopBody fileName ac us (LoopState.fresh st.owners) ref),
      ← LoopState.onto_assoc, ← loopBody_onto]
    have : (loopBody fileName ac us st ref).owners =
        (loopBody fileName ac us (LoopState.fresh st.owners) ref).owners := by
      rw [loopBody_onto]; rfl
    rw [this]

theorem rangeRefs_append (fileName : String) (ac : ApiClient) (us : Unstructured)
    (pre post : List OwnerReference) (st : LoopState) :
    rangeRefs fileName ac us (pre ++ post) st =
      rangeRefs fileName ac us post (rangeRefs fileName ac us pre st) := by
  induction pre generalizing st with
  | nil => rfl
  | cons ref rest ih => simp only [List.cons_append, rangeRefs]; exact ih _

/-- A binding of the map survives the loop. -/
theorem rangeRefs_get_mono {fileName : String} {ac : ApiClient} {us : Unstructured}
    {key : String} {owner : Unstructured} (refs : List OwnerReference) (st : LoopState)
    (h : st.owners.get key = some owner) :
    (rangeRefs fileName ac us refs st).owners.get key = some owner := by
  induction refs generalizing st with
  | nil => exact h
  | cons ref rest ih =>
    apply ih
    have : (loopBody fileName ac us st ref).owners = (findOwner ac st.owners ref us).owners := by
      simp only [loopBody]
      cases (findOwner ac st.owners ref us).result with
      | error err => rfl
      | ok owner2 => by_cases hne : ref.UID = owner2.GetUID <;> simp [hne]
    rw [this]; exact findOwner_get_mono h

/-- The loop visits every reference once: it records as many references as it
was given. -/
theorem rangeRefs_refs_length (fileName : String) (ac : ApiClient) (us : Unstructured)
    (refs : List OwnerReference) (st : LoopState) :
    (rangeRefs fileName ac us refs st).refs.length = st.refs.length + refs.length := by
  induction refs generalizing st with
  | nil => rfl
  | cons ref rest ih =>
    simp only [rangeRefs]
    rw [ih]
    have : (loopBody fileName ac us st ref).refs.length = st.refs.length + 1 := by
      simp only [loopBody]
      cases (findOwner ac st.owners ref us).result with
      | error err => simp
      | ok owner2 => by_cases hne : ref.UID = owner2.GetUID <;> simp [hne]
    rw [this, List.length_cons]; omega

/-! ## Lemmas on `updateFile` -/

theorem strings.replaceFirst_of_append (old rel : List Char) (h : old ≠ []) :
    strings.replaceFirst old [] (old ++ rel) = rel := by
  cases old with
  | nil => exact absurd rfl h
  | cons c cs =>
    have hp : (c :: cs) <+: c :: (cs ++ rel) := List.prefix_append (c :: cs) rel
    show strings.replaceFirst (c :: cs) [] (c :: (cs ++ rel)) = rel
    rw [strings.replaceFirst, if_pos hp]
    simp

/-- For a file under the target directory the reported name is the path relative
to that directory. -/
theorem fileNameOf_under_target (config : Config) (rel : String) :
    fileNameOf config (config.Target ++ "/" ++ rel) = rel := by
  have h := strings.replaceFirst_of_append (config.Target ++ "/").toList rel.toList
    (by simp [String.toList])
  simp only [fileNameOf, strings.Replace1]
  have e : (config.Target ++ "/" ++ rel).toList = (config.Target ++ "/").toList ++ rel.toList := by
    simp [String.toList]
  rw [e]
  have e2 : ("" : String).toList = [] := rfl
  rw [e2, h]
  rfl

theorem strings.replaceFirst_of_not_infix (old new s : List Char)
    (h : ¬ old <:+: s) : strings.replaceFirst old new s = s := by
  induction s with
  | nil =>
    have hne : old ≠ [] := fun e => h (e ▸ List.nil_infix)
    simp [strings.replaceFirst, hne]
  | cons c cs ih =>
    have hp : ¬ old <+: c :: cs := fun hp => h hp.isInfix
    have ht : ¬ old <:+: cs := fun ht => h (ht.trans (List.suffix_cons c cs).isInfix)
    rw [strings.replaceFirst, if_neg hp, ih ht]

/-- A path in which the target followed by a slash does not occur is reported as
it is. -/
theorem fileNameOf_without_target (config : Config) (file : String)
    (h : ¬ (config.Target ++ "/").toList <:+: file.toList) :
    fileNameOf config file = file := by
  simp only [fileNameOf, strings.Replace1]
  rw [strings.replaceFirst_of_not_infix _ _ _ h]
  rfl

/-- With the file read, `updateFile` is its loop followed by the write decision. -/
theorem updateFile_of_read {config : Config} {file : String} {ac : ApiClient} {w : World}
    {table : Table} {us : Unstructured} (h : read w file = .ok us) :
    updateFile config file ac w table =
      afterLoop file us w (loopAt config file ac w table us us.OwnerReferences) := by
  unfold updateFile
  simp only [h, Unstructured.GetOwnerReferences, fileNameOf, afterLoop, loopAt]
  cases hrefs : us.OwnerReferences with
  | nil => simp [rangeRefs, loopInit]
  | cons ref rest =>
    have hpos : (ref :: rest).length > 0 := Nat.succ_pos _
    rw [if_pos hpos]

/-- The loop over `pre ++ ref :: post`: the iteration on `ref` from the state
reached after `pre`, then what `post` adds. -/
theorem loopAt_split (config : Config) (file : String) (ac : ApiClient) (w : World)
    (table : Table) (us : Unstructured) (pre post : List OwnerReference)
    (ref : OwnerReference) :
    loopAt config file ac w table us (pre ++ ref :: post) =
      (loopBody (fileNameOf config file) ac us (loopAt config file ac w table us pre) ref).onto
        (loopAdds config file ac us
          (loopBody (fileNameOf config file) ac us
            (loopAt config file ac w table us pre) ref).owners post) := by
  simp only [loopAt, loopAdds]
  rw [rangeRefs_append]
  simp only [rangeRefs]
  rw [rangeRefs_onto]

theorem loopAt_append (config : Config) (file : String) (ac : ApiClient) (w : World)
    (table : Table) (us : Unstructured) (pre post : List OwnerReference) :
    loopAt config file ac w table us (pre ++ post) =
      (loopAt config file ac w table us pre).onto
        (loopAdds config file ac us (loopAt config file ac w table us pre).owners post) := by
  simp only [loopAt, loopAdds]
  rw [rangeRefs_append, rangeRefs_onto]

theorem loopAt_refs_length (config : Config) (file : String) (ac : ApiClient) (w : World)
    (table : Table) (us : Unstructured) (pre : List OwnerReference) :
    (loopAt config file ac w table us pre).refs.length = pre.length := by
  simp [loopAt, rangeRefs_refs_length, loopInit]

theorem errMsg_notFound (err : Error) :
    (errMsg err = "<NOT FOUND>" ↔ errors.IsNotFound err = true) ∧
    (errors.IsNotFound err = false → errMsg err = "<ERROR>") := by
  unfold errMsg
  cases errors.IsNotFound err <;> simp

/-- C8. For a reference whose resolution fails with `err`, the loop of updateFile
appends exactly one row (file name, kind, name, recorded uid, marker) between the
rows of the references before it and those of the references after it; the marker
is "<NOT FOUND>" exactly when the error is a not-found error and "<ERROR>"
otherwise; the reference is left as it was; and updateFile goes on from the final
loop variables. -/
theorem updateFile_unresolved_row (config : Config) (file : String) (ac : ApiClient)
    (w : World) (table : Table) (us : Unstructured) (pre post : List OwnerReference)
    (ref : OwnerReference) (err : Error)
    (hread : read w file = .ok us)
    (hrefs : us.OwnerReferences = pre ++ ref :: post)
    (hfail : (findOwner ac (loopAt config file ac w table us pre).owners ref us).result
      = .error err) :
    updateFile config file ac w table =
      afterLoop file us w (loopAt config file ac w table us us.OwnerReferences) ∧
    (loopAt config file ac w table us us.OwnerReferences).table =
      (loopAt config file ac w table us pre).table ++
        [fileNameOf config file, ref.Kind, ref.Name, ref.UID, errMsg err] ::
        (loopAdds config file ac us (loopAt config file ac w table us pre).owners post).table ∧
    (errMsg err = "<NOT FOUND>" ↔ errors.IsNotFound err = true) ∧
    (errors.IsNotFound err = false → errMsg err = "<ERROR>") ∧
    (loopAt config file ac w table us us.OwnerReferences).refs[pre.length]? = some ref := by
  refine ⟨updateFile_of_read hread, ?_, (errMsg_notFound err).1, (errMsg_notFound err).2, ?_⟩
  · rw [hrefs, loopAt_split, loopBody_error hfail]
    simp [LoopState.onto]
  · rw [hrefs, loopAt_split, loopBody_error hfail]
    simp only [LoopState.onto, List.append_assoc, List.singleton_append]
    rw [List.getElem?_append_right (by rw [loopAt_refs_length])]
    simp [loopAt_refs_length]


theorem loopBody_changed_iff (fileName : String) (ac : ApiClient) (us : Unstructured)
    (st : LoopState) (ref : OwnerReference) :
    (loopBody fileName ac us st ref).changed = true ↔
      st.changed = true ∨
        ∃ owner, (findOwner ac st.owners ref us).result = .ok owner ∧ ref.UID ≠ owner.UID := by
  cases hres : (findOwner ac st.owners ref us).result with
  | error err => rw [loopBody_error hres]; simp
  | ok owner =>
    by_cases hu : ref.UID = owner.UID
    · rw [loopBody_ok_eq hres hu]; simp [hu]
    · rw [loopBody_ok_ne hres hu]; simp [hu]

/-- The flag `changed` is set by the loop exactly when it was set before or some
reference resolves to an object with another uid. -/
theorem rangeRefs_changed_iff (fileName : String) (ac : ApiClient) (us : Unstructured)
    (refs : List OwnerReference) (st : LoopState) :
    (rangeRefs fileName ac us refs st).changed = true ↔
      st.changed = true ∨
        ∃ pre ref post owner, refs = pre ++ ref :: post ∧
          (findOwner ac (rangeRefs fileName ac us pre st).owners ref us).result = .ok owner ∧
          ref.UID ≠ owner.UID := by
  induction refs generalizing st with
  | nil => simp [rangeRefs]
  | cons r rest ih =>
    simp only [rangeRefs]
    rw [ih, loopBody_changed_iff]
    constructor
    · rintro ((h | ⟨owner, h1, h2⟩) | ⟨pre, ref, post, owner, h1, h2, h3⟩)
      · exact Or.inl h
      · exact Or.inr ⟨[], r, rest, owner, rfl, h1, h2⟩
      · exact Or.inr ⟨r :: pre, ref, post, owner, by rw [h1]; rfl, h2, h3⟩
    · rintro (h | ⟨pre, ref, post, owner, h1, h2, h3⟩)
      · exact Or.inl (Or.inl h)
      · cases pre with
        | nil =>
          simp only [List.nil_append, List.cons.injEq] at h1
          obtain ⟨rfl, rfl⟩ := h1
          exact Or.inl (Or.inr ⟨owner, h2, h3⟩)
        | cons p pre2 =>
          simp only [List.cons_append, List.cons.injEq] at h1
          obtain ⟨rfl, rfl⟩ := h1
          exact Or.inr ⟨pre2, ref, post, owner, rfl, h2, h3⟩

/-- C3, as the code has it. For a reference with recorded uid A whose owner
resolves to an object of uid B with A ≠ B: the loop of updateFile appends exactly
one row (file name, kind, name, A, B) between the rows of the references before
it and those of the references after it, the reference list then holds B at that
position, and updateFile ends by writing the object with the updated list to the
file; when the write succeeds the file holds that object. The file name of the
row is the path with the first occurrence of the target followed by a slash
removed: the path relative to the target when the path starts with the target
and a slash, and the whole path when the target followed by a slash does not
occur in it. -/
theorem updateFile_corrects_uid (config : Config) (file : String) (ac : ApiClient)
    (w : World) (table : Table) (us : Unstructured) (pre post : List OwnerReference)
    (ref : OwnerReference) (owner : Unstructured)
    (hread : read w file = .ok us)
    (hrefs : us.OwnerReferences = pre ++ ref :: post)
    (hres : (findOwner ac (loopAt config file ac w table us pre).owners ref us).result
      = .ok owner)
    (hne : ref.UID ≠ owner.UID) :
    (loopAt config file ac w table us us.OwnerReferences).table =
      (loopAt config file ac w table us pre).table ++
        [fileNameOf config file, ref.Kind, ref.Name, ref.UID, owner.UID] ::
        (loopAdds config file ac us
          (findOwner ac (loopAt config file ac w table us pre).owners ref us).owners post).table ∧
    (loopAt config file ac w table us us.OwnerReferences).refs[pre.length]? =
      some { ref with UID := owner.UID } ∧
    updateFile config file ac w table =
      (match write file
          (us.SetOwnerReferences (loopAt config file ac w table us us.OwnerReferences).refs)
          { w with calls := (loopAt config file ac w table us us.OwnerReferences).calls } with
        | .error err => .error err
        | .ok w1 => .ok (w1, (loopAt config file ac w table us us.OwnerReferences).table)) ∧
    (w.writeErr file
        (us.SetOwnerReferences (loopAt config file ac w table us us.OwnerReferences).refs) = none →
      ∃ w1, updateFile config file ac w table =
          .ok (w1, (loopAt config file ac w table us us.OwnerReferences).table) ∧
        w1.disk file = .ok (us.SetOwnerReferences
          (loopAt config file ac w table us us.OwnerReferences).refs) ∧
        w1.writes = w.writes ++ [(file, us.SetOwnerReferences
          (loopAt config file ac w table us us.OwnerReferences).refs)]) ∧
    (∀ rel, file = config.Target ++ "/" ++ rel → fileNameOf config file = rel) ∧
    (¬ (config.Target ++ "/").toList <:+: file.toList → fileNameOf config file = file) := by
  have hch : (loopAt config file ac w table us us.OwnerReferences).changed = true := by
    rw [loopAt, rangeRefs_changed_iff]
    exact Or.inr ⟨pre, ref, post, owner, hrefs, hres, hne⟩
  have hup : updateFile config file ac w table =
      (match write file
          (us.SetOwnerReferences (loopAt config file ac w table us us.OwnerReferences).refs)
          { w with calls := (loopAt config file ac w table us us.OwnerReferences).calls } with
        | .error err => .error err
        | .ok w1 => .ok (w1, (loopAt config file ac w table us us.OwnerReferences).table)) := by
    rw [updateFile_of_read hread]
    simp only [afterLoop, hch, if_true]
  refine ⟨?_, ?_, hup, ?_, ?_, fileNameOf_without_target config file⟩
  · rw [hrefs, loopAt_split, loopBody_ok_ne hres hne]
    simp [LoopState.onto]
  · rw [hrefs, loopAt_split, loopBody_ok_ne hres hne]
    simp only [LoopState.onto, List.append_assoc, List.singleton_append]
    rw [List.getElem?_append_right (by rw [loopAt_refs_length])]
    simp [loopAt_refs_length]
  · intro hw
    rw [hup]
    simp [write, hw]
  · intro rel hrel
    rw [hrel]
    exact fileNameOf_under_target config rel

/-- C7. A resolution failure does not abort the file. When the resolution of a
reference fails, updateFile still runs its loop to the end and returns an error
only if the final write fails; and the other references are processed exactly as
in the file without the failing reference: the map and the flag `changed` end up
the same, the rows are those of that file with the one row of the failing
reference inserted at its place, and the references are those of that file with
the failing reference, unchanged, inserted at its place. -/
theorem updateFile_failure_isolated (config : Config) (file : String) (ac : ApiClient)
    (w : World) (table : Table) (us : Unstructured) (pre post : List OwnerReference)
    (ref : OwnerReference) (err : Error)
    (hread : read w file = .ok us)
    (hrefs : us.OwnerReferences = pre ++ ref :: post)
    (hfail : (findOwner ac (loopAt config file ac w table us pre).owners ref us).result
      = .error err) :
    updateFile config file ac w table =
      afterLoop file us w (loopAt config file ac w table us (pre ++ ref :: post)) ∧
    ((∀ u, w.writeErr file u = none) → ∃ r, updateFile config file ac w table = .ok r) ∧
    (loopAt config file ac w table us (pre ++ ref :: post)).owners =
      (loopAt config file ac w table us (pre ++ post)).owners ∧
    (loopAt config file ac w table us (pre ++ ref :: post)).changed =
      (loopAt config file ac w table us (pre ++ post)).changed ∧
    (∃ before after,
      (loopAt config file ac w table us (pre ++ post)).table = before ++ after ∧
      (loopAt config file ac w table us (pre ++ ref :: post)).table =
        before ++ [fileNameOf config file, ref.Kind, ref.Name, ref.UID, errMsg err] :: after ∧
      before = (loopAt config file ac w table us pre).table) ∧
    (∃ before after,
      (loopAt config file ac w table us (pre ++ post)).refs = before ++ after ∧
      (loopAt config file ac w table us (pre ++ ref :: post)).refs = before ++ ref :: after ∧
      before.length = pre.length) := by
  have hup : updateFile config file ac w table =
      afterLoop file us w (loopAt config file ac w table us us.OwnerReferences) :=
    updateFile_of_read hread
  rw [hrefs] at hup
  refine ⟨hup, ?_, ?_, ?_, ?_, ?_⟩
  · intro hw
    rw [hup, afterLoop]
    split
    · simp [write, hw]
    · exact ⟨_, rfl⟩
  · rw [loopAt_split, loopAt_append, loopBody_error hfail]; rfl
  · rw [loopAt_split, loopAt_append, loopBody_error hfail]; rfl
  · refine ⟨(loopAt config file ac w table us pre).table,
      (loopAdds config file ac us (loopAt config file ac w table us pre).owners post).table,
      ?_, ?_, rfl⟩
    · rw [loopAt_append]; rfl
    · rw [loopAt_split, loopBody_error hfail]
      simp [LoopState.onto]
  · refine ⟨(loopAt config file ac w table us pre).refs,
      (loopAdds config file ac us (loopAt config file ac w table us pre).owners post).refs,
      ?_, ?_, loopAt_refs_length ..⟩
    · rw [loopAt_append]; rfl
    · rw [loopAt_split, loopBody_error hfail]
      simp [LoopState.onto]


/-- C10. The caching contract of findOwner. The key is namespace, "#", apiVersion,
"#", name. On a hit the stored object is returned, the map is unchanged and no
remote call is made. On a miss with a successful fetch the fetched object is
returned and stored under exactly that key, all other keys staying as they were.
On any failure (parse, mapping or fetch) the error is returned and the map is
unchanged, so the key is still unbound and a later lookup of it resolves again. -/
theorem findOwner_cache_contract (ac : ApiClient) (owners : Owners) (ref : OwnerReference)
    (us : Unstructured) :
    ownerKey ref us = us.Namespace ++ "#" ++ ref.APIVersion ++ "#" ++ ref.Name ∧
    (∀ owner, owners.get (ownerKey ref us) = some owner →
      findOwner ac owners ref us = { result := .ok owner, owners := owners, calls := [] }) ∧
    (∀ owner, owners.get (ownerKey ref us) = none →
      (findOwner ac owners ref us).result = .ok owner →
      (∃ gv resource, schema.ParseGroupVersion ref.APIVersion = .ok gv ∧
        ac.RESTMapping gv.Group ref.Kind gv.Version = .ok resource ∧
        ac.Get resource us.Namespace ref.Name = .ok owner ∧
        (findOwner ac owners ref us).calls =
          [.mapping gv.Group ref.Kind gv.Version, .get resource us.Namespace ref.Name]) ∧
      (findOwner ac owners ref us).owners = owners.set (ownerKey ref us) owner ∧
      ∀ key, (findOwner ac owners ref us).owners.get key =
        if key = ownerKey ref us then some owner else owners.get key) ∧
    (∀ err, (findOwner ac owners ref us).result = .error err →
      (schema.ParseGroupVersion ref.APIVersion = .error err ∨
        ∃ gv, schema.ParseGroupVersion ref.APIVersion = .ok gv ∧
          (ac.RESTMapping gv.Group ref.Kind gv.Version = .error err ∨
            ∃ resource, ac.RESTMapping gv.Group ref.Kind gv.Version = .ok resource ∧
              ac.Get resource us.Namespace ref.Name = .error err)) ∧
      (findOwner ac owners ref us).owners = owners ∧
      (findOwner ac owners ref us).owners.get (ownerKey ref us) = none) := by
  refine ⟨rfl, fun owner h => findOwner_hit h, ?_, ?_⟩
  · intro owner hmiss hres
    cases hp : schema.ParseGroupVersion ref.APIVersion with
    | error err => simp [findOwner, hmiss, hp] at hres
    | ok gv =>
      cases hm : ac.RESTMapping gv.Group ref.Kind gv.Version with
      | error err => simp [findOwner, hmiss, hp, hm] at hres
      | ok resource =>
        cases hg : ac.Get resource us.GetNamespace ref.Name with
        | error err => simp [findOwner, hmiss, hp, hm, hg] at hres
        | ok owner2 =>
          have e : findOwner ac owners ref us =
              { result := .ok owner2, owners := owners.set (ownerKey ref us) owner2,
                calls := [.mapping gv.Group ref.Kind gv.Version,
                          .get resource us.GetNamespace ref.Name] } := by
            simp [findOwner, hmiss, hp, hm, hg]
          rw [e] at hres
          cases hres
          rw [e]
          refine ⟨⟨gv, resource, rfl, hm, hg, rfl⟩, rfl, ?_⟩
          intro key
          by_cases hk : key = ownerKey ref us
          · subst hk; simp [Owners.get_set_same]
          · simp only [hk, if_false]
            exact Owners.get_set_other _ _ _ _ (Ne.symm hk)
  · intro err hres
    have hmiss := findOwner_error_miss hres
    refine ⟨?_, findOwner_error_owners hres, ?_⟩
    · cases hp : schema.ParseGroupVersion ref.APIVersion with
      | error err2 =>
        left
        simp [findOwner, hmiss, hp] at hres
        rw [hres]
      | ok gv =>
        right
        refine ⟨gv, rfl, ?_⟩
        cases hm : ac.RESTMapping gv.Group ref.Kind gv.Version with
        | error err2 =>
          left
          simp [findOwner, hmiss, hp, hm] at hres
          rw [hres]
        | ok resource =>
          right
          refine ⟨resource, rfl, ?_⟩
          cases hg : ac.Get resource us.GetNamespace ref.Name with
          | error err2 =>
            simp [findOwner, hmiss, hp, hm, hg] at hres
            rw [← hres]; exact hg
          | ok owner2 => simp [findOwner, hmiss, hp, hm, hg] at hres
    · rw [findOwner_error_owners hres]; exact hmiss


theorem loopBody_owners (fileName : String) (ac : ApiClient) (us : Unstructured)
    (st : LoopState) (ref : OwnerReference) :
    (loopBody fileName ac us st ref).owners = (findOwner ac st.owners ref us).owners := by
  cases hres : (findOwner ac st.owners ref us).result with
  | error err => rw [loopBody_error hres, findOwner_error_owners hres]
  | ok owner =>
    by_cases hu : ref.UID = owner.UID
    · rw [loopBody_ok_eq hres hu]
    · rw [loopBody_ok_ne hres hu]

/-- The table after the loop is the table before it followed by the rows of the
specification. -/
theorem rangeRefs_table (fileName : String) (ac : ApiClient) (us : Unstructured)
    (refs : List OwnerReference) (st : LoopState) :
    (rangeRefs fileName ac us refs st).table =
      st.table ++ reportRows fileName ac us st.owners refs := by
  induction refs generalizing st with
  | nil => simp [rangeRefs, reportRows]
  | cons ref rest ih =>
    simp only [rangeRefs, reportRows]
    rw [ih, loopBody_owners]
    cases hres : (findOwner ac st.owners ref us).result with
    | error err => rw [loopBody_error hres]; simp
    | ok owner =>
      by_cases hu : ref.UID = owner.UID
      · rw [loopBody_ok_eq hres hu]; simp [hu]
      · rw [loopBody_ok_ne hres hu]; simp [hu]

theorem afterLoop_ok_table {file : String} {us : Unstructured} {w w1 : World}
    {st : LoopState} {table1 : Table} (h : afterLoop file us w st = .ok (w1, table1)) :
    table1 = st.table := by
  unfold afterLoop at h
  split at h
  · split at h
    · cases h
    · cases h; rfl
  · cases h; rfl

theorem afterLoop_ok_of_writable {file : String} (us : Unstructured) {w : World}
    (st : LoopState) (hw : ∀ u, w.writeErr file u = none) :
    ∃ w1, afterLoop file us w st = .ok (w1, st.table) := by
  unfold afterLoop
  split
  · simp [write, hw]
  · exact ⟨_, rfl⟩

/-- A successful `updateFile` has read the file, and its table is the table it
was given followed by the rows of the file. -/
theorem updateFile_ok_table {config : Config} {file : String} {ac : ApiClient}
    {w w1 : World} {table table1 : Table}
    (h : updateFile config file ac w table = .ok (w1, table1)) :
    ∃ us, read w file = .ok us ∧
      table1 = table ++ reportRows (fileNameOf config file) ac us [] us.OwnerReferences := by
  cases hread : read w file with
  | error err => simp [updateFile, hread] at h
  | ok us =>
    refine ⟨us, rfl, ?_⟩
    rw [updateFile_of_read hread] at h
    rw [afterLoop_ok_table h, loopAt, rangeRefs_table]
    rfl

theorem rangeFiles_append (config : Config) (ac : ApiClient) (files1 files2 : List String)
    (w : World) (table : Table) :
    rangeFiles config ac (files1 ++ files2) w table =
      match rangeFiles config ac files1 w table with
      | .error err => .error err
      | .ok (w1, table1) => rangeFiles config ac files2 w1 table1 := by
  induction files1 generalizing w table with
  | nil => rfl
  | cons file rest ih =>
    simp only [List.cons_append, rangeFiles]
    cases updateFile config file ac w table with
    | error err => rfl
    | ok r => exact ih r.1 r.2

/-- The table a run of the file loop ends with extends the table it started with. -/
theorem rangeFiles_table_extends {config : Config} {ac : ApiClient} (files : List String)
    {w w1 : World} {table table1 : Table}
    (h : rangeFiles config ac files w table = .ok (w1, table1)) : table <+: table1 := by
  induction files generalizing w table with
  | nil => simp only [rangeFiles] at h; cases h; exact List.prefix_refl _
  | cons file rest ih =>
    simp only [rangeFiles] at h
    cases hup : updateFile config file ac w table with
    | error err => rw [hup] at h; cases h
    | ok r =>
      rw [hup] at h
      obtain ⟨us, _, ht⟩ := @updateFile_ok_table config file ac w r.1 table r.2 hup
      have h2 := ih h
      rw [ht] at h2
      exact List.IsPrefix.trans (List.prefix_append _ _) h2

/-- C9. The report is an append-only sequence in processing order. For one file,
updateFile returns the table it was given followed by the rows of the file's
references in declaration order: one row per unresolved reference, one per
corrected reference, none for a reference whose uid matches (reportRows); and it
does return when the write does not fail. Across a run, the rows already in the
table stay in front, the rows of the earlier files come next, then the rows of
the file, then those of the later files. -/
theorem report_rows_in_processing_order (config : Config) (ac : ApiClient) :
    (∀ file w table us, read w file = .ok us →
      (∀ w1 table1, updateFile config file ac w table = .ok (w1, table1) →
        table1 = table ++ reportRows (fileNameOf config file) ac us [] us.OwnerReferences) ∧
      ((∀ u, w.writeErr file u = none) →
        ∃ w1, updateFile config file ac w table =
          .ok (w1, table ++ reportRows (fileNameOf config file) ac us [] us.OwnerReferences))) ∧
    (∀ files1 file files2 w table w2 table2,
      rangeFiles config ac (files1 ++ file :: files2) w table = .ok (w2, table2) →
      ∃ w1 table1 us later,
        rangeFiles config ac files1 w table = .ok (w1, table1) ∧
        table <+: table1 ∧
        read w1 file = .ok us ∧
        table2 = table1 ++ reportRows (fileNameOf config file) ac us [] us.OwnerReferences
          ++ later) := by
  constructor
  · intro file w table us hread
    constructor
    · intro w1 table1 h
      obtain ⟨us2, hr2, ht⟩ := updateFile_ok_table h
      rw [hread] at hr2
      cases hr2
      exact ht
    · intro hw
      obtain ⟨w1, h1⟩ := afterLoop_ok_of_writable us
        (loopAt config file ac w table us us.OwnerReferences) hw
      refine ⟨w1, ?_⟩
      rw [updateFile_of_read hread, h1, loopAt, rangeRefs_table]
      rfl
  · intro files1 file files2 w table w2 table2 h
    rw [rangeFiles_append] at h
    cases h1 : rangeFiles config ac files1 w table with
    | error err => rw [h1] at h; cases h
    | ok r1 =>
      obtain ⟨w1, table1⟩ := r1
      rw [h1] at h
      simp only [rangeFiles] at h
      cases hup : updateFile config file ac w1 table1 with
      | error err => rw [hup] at h; cases h
      | ok r =>
        obtain ⟨wf, tablef⟩ := r
        rw [hup] at h
        obtain ⟨us, hread, ht⟩ := updateFile_ok_table hup
        obtain ⟨later, hl⟩ := rangeFiles_table_extends files2 h
        exact ⟨w1, table1, us, later, rfl, rangeFiles_table_extends files1 h1, hread,
          by rw [← hl, ht]⟩

/-- C6. The file is written exactly when some reference resolves to an object
with another uid. If one does, updateFile ends by writing the object with the
updated references to the file; if none does (no reference at all, or every
reference matching or failing to resolve), updateFile returns without opening the
file for writing: the disk and the log of writes are as before. -/
theorem updateFile_writes_iff (config : Config) (file : String) (ac : ApiClient)
    (w : World) (table : Table) (us : Unstructured) (hread : read w file = .ok us) :
    (HasCorrection config file ac w table us →
      updateFile config file ac w table =
        match write file
          (us.SetOwnerReferences (loopAt config file ac w table us us.OwnerReferences).refs)
          { w with calls := (loopAt config file ac w table us us.OwnerReferences).calls } with
        | .error err => .error err
        | .ok w1 => .ok (w1, (loopAt config file ac w table us us.OwnerReferences).table)) ∧
    (¬ HasCorrection config file ac w table us →
      updateFile config file ac w table =
        .ok ({ w with calls := (loopAt config file ac w table us us.OwnerReferences).calls },
             (loopAt config file ac w table us us.OwnerReferences).table)) ∧
    ((∃ w1 table1, updateFile config file ac w table = .ok (w1, table1) ∧
        w1.writes = w.writes ∧ w1.disk = w.disk) ↔
      ¬ HasCorrection config file ac w table us) ∧
    (us.OwnerReferences = [] → updateFile config file ac w table = .ok (w, table)) := by
  have hiff : (loopAt config file ac w table us us.OwnerReferences).changed = true ↔
      HasCorrection config file ac w table us := by
    rw [loopAt, rangeRefs_changed_iff]
    simp [loopInit, HasCorrection, loopAt]
  have hyes : HasCorrection config file ac w table us →
      updateFile config file ac w table =
        match write file
          (us.SetOwnerReferences (loopAt config file ac w table us us.OwnerReferences).refs)
          { w with calls := (loopAt config file ac w table us us.OwnerReferences).calls } with
        | .error err => .error err
        | .ok w1 => .ok (w1, (loopAt config file ac w table us us.OwnerReferences).table) := by
    intro hc
    rw [updateFile_of_read hread]
    simp only [afterLoop, hiff.2 hc, if_true]
  have hno : ¬ HasCorrection config file ac w table us →
      updateFile config file ac w table =
        .ok ({ w with calls := (loopAt config file ac w table us us.OwnerReferences).calls },
             (loopAt config file ac w table us us.OwnerReferences).table) := by
    intro hc
    have hf : (loopAt config file ac w table us us.OwnerReferences).changed = false := by
      cases hb : (loopAt config file ac w table us us.OwnerReferences).changed with
      | false => rfl
      | true => exact absurd (hiff.1 hb) hc
    rw [updateFile_of_read hread]
    simp [afterLoop, hf]
  refine ⟨hyes, hno, ⟨?_, ?_⟩, ?_⟩
  · rintro ⟨w1, table1, hok, hwr, _⟩ hc
    rw [hyes hc] at hok
    cases hwe : w.writeErr file
        (us.SetOwnerReferences (loopAt config file ac w table us us.OwnerReferences).refs) with
    | some err => simp [write, hwe] at hok
    | none =>
      simp only [write, hwe] at hok
      cases hok
      have := congrArg List.length hwr
      simp at this
  · intro hc
    exact ⟨_, _, hno hc, rfl, rfl⟩
  · intro hnil
    have hc : ¬ HasCorrection config file ac w table us := by
      rintro ⟨pre, ref, post, owner, h, _⟩
      rw [hnil] at h
      simp at h
    rw [hno hc, hnil]
    rfl

theorem loopBody_calls (fileName : String) (ac : ApiClient) (us : Unstructured)
    (st : LoopState) (ref : OwnerReference) :
    (loopBody fileName ac us st ref).calls = st.calls ++ (findOwner ac st.owners ref us).calls := by
  cases hres : (findOwner ac st.owners ref us).result with
  | error err => rw [loopBody_error hres]
  | ok owner =>
    by_cases hu : ref.UID = owner.UID
    · rw [loopBody_ok_eq hres hu]
    · rw [loopBody_ok_ne hres hu]

theorem ParseGroupVersion_error_notFound {gv : String} {err : Error}
    (h : schema.ParseGroupVersion gv = .error err) : errors.IsNotFound err = false := by
  unfold schema.ParseGroupVersion at h
  split at h
  · cases h
  · split at h
    · cases h
    · cases h
    · cases h; rfl

/-- C1, as the code has it. The map of resolved owners is created by each
updateFile call, so it is shared by the references of one file and not by
different files. Within one file, once a reference has been resolved, a later
reference with the same apiVersion string and the same name is answered from the
map: it gets the same object, the map is unchanged and no remote call is made
for it, so the call log of the file has no entry for it. And the loop of every
file starts from the empty map: when the first reference of a file parses and
maps to a resource, the remote fetch for it is made in that file, whatever
earlier files resolved. -/
theorem findOwner_cached_within_file (config : Config) (file : String) (ac : ApiClient)
    (w : World) (table : Table) (us : Unstructured) (pre mid post : List OwnerReference)
    (r1 r2 : OwnerReference) (owner : Unstructured)
    (hrefs : us.OwnerReferences = (pre ++ r1 :: mid) ++ r2 :: post)
    (ha : r1.APIVersion = r2.APIVersion) (hn : r1.Name = r2.Name)
    (hres : (findOwner ac (loopAt config file ac w table us pre).owners r1 us).result
      = .ok owner) :
    findOwner ac (loopAt config file ac w table us (pre ++ r1 :: mid)).owners r2 us =
      { result := .ok owner
        owners := (loopAt config file ac w table us (pre ++ r1 :: mid)).owners
        calls := [] } ∧
    (loopAt config file ac w table us us.OwnerReferences).calls =
      (loopAt config file ac w table us (pre ++ r1 :: mid)).calls ++
        (loopAdds config file ac us
          (loopAt config file ac w table us (pre ++ r1 :: mid)).owners post).calls ∧
    (loopAt config file ac w table us []).owners = [] ∧
    (∀ first rest gv resource, us.OwnerReferences = first :: rest →
      schema.ParseGroupVersion first.APIVersion = .ok gv →
      ac.RESTMapping gv.Group first.Kind gv.Version = .ok resource →
      ∃ more, (loopAt config file ac w table us us.OwnerReferences).calls =
        w.calls ++ RemoteCall.mapping gv.Group first.Kind gv.Version ::
          RemoteCall.get resource us.Namespace first.Name :: more) := by
  have hkey : ownerKey r2 us = ownerKey r1 us := by simp [ownerKey, ha, hn]
  have hget : (loopAt config file ac w table us (pre ++ r1 :: mid)).owners.get
      (ownerKey r2 us) = some owner := by
    rw [hkey, loopAt, rangeRefs_append]
    simp only [rangeRefs]
    apply rangeRefs_get_mono
    rw [loopBody_owners]
    exact findOwner_ok_get hres
  have hhit := @findOwner_hit ac _ _ _ _ hget
  refine ⟨hhit, ?_, rfl, ?_⟩
  · rw [hrefs, loopAt_split]
    simp only [LoopState.onto]
    rw [loopBody_calls, loopBody_owners, hhit]
    simp
  · intro first rest gv resource hfirst hp hm
    rw [hfirst]
    have hsplit := loopAt_split config file ac w table us [] rest first
    simp only [List.nil_append] at hsplit
    rw [hsplit]
    simp only [LoopState.onto]
    rw [loopBody_calls]
    have hcalls : ∃ tail, (findOwner ac (loopAt config file ac w table us []).owners first us).calls
        = RemoteCall.mapping gv.Group first.Kind gv.Version ::
          RemoteCall.get resource us.Namespace first.Name :: tail := by
      have h0 : (loopAt config file ac w table us []).owners = [] := rfl
      rw [h0]
      cases hg : ac.Get resource us.GetNamespace first.Name with
      | error err => exact ⟨[], by simp [findOwner, Owners.get, hp, hm, hg]; rfl⟩
      | ok o => exact ⟨[], by simp [findOwner, Owners.get, hp, hm, hg]; rfl⟩
    obtain ⟨tail, ht⟩ := hcalls
    rw [ht]
    exact ⟨_, by simp [loopAt, rangeRefs, loopInit]; rfl⟩

/-- C2, as the code has it. A reference whose apiVersion does not parse, and
whose key is not bound in the map, is handled like any other failed resolution:
findOwner returns the parse error without a remote call, the loop of updateFile
appends the row (file name, kind, name, recorded uid, "<ERROR>"), leaves the
reference as it was and goes on with the next reference; updateFile does not
return the parse error, it returns an error only if the final write fails. -/
theorem updateFile_malformed_apiVersion (config : Config) (file : String) (ac : ApiClient)
    (w : World) (table : Table) (us : Unstructured) (pre post : List OwnerReference)
    (ref : OwnerReference) (err : Error)
    (hread : read w file = .ok us)
    (hrefs : us.OwnerReferences = pre ++ ref :: post)
    (hparse : schema.ParseGroupVersion ref.APIVersion = .error err)
    (hmiss : (loopAt config file ac w table us pre).owners.get (ownerKey ref us) = none) :
    findOwner ac (loopAt config file ac w table us pre).owners ref us =
      { result := .error err
        owners := (loopAt config file ac w table us pre).owners
        calls := [] } ∧
    updateFile config file ac w table =
      afterLoop file us w (loopAt config file ac w table us us.OwnerReferences) ∧
    ((∀ u, w.writeErr file u = none) → ∃ r, updateFile config file ac w table = .ok r) ∧
    (loopAt config file ac w table us us.OwnerReferences).table =
      (loopAt config file ac w table us pre).table ++
        [fileNameOf config file, ref.Kind, ref.Name, ref.UID, "<ERROR>"] ::
        (loopAdds config file ac us (loopAt config file ac w table us pre).owners post).table ∧
    (loopAt config file ac w table us us.OwnerReferences).refs[pre.length]? = some ref := by
  have hfind : findOwner ac (loopAt config file ac w table us pre).owners ref us =
      { result := .error err
        owners := (loopAt config file ac w table us pre).owners
        calls := [] } := by
    simp [findOwner, hmiss, hparse]
  have hfail : (findOwner ac (loopAt config file ac w table us pre).owners ref us).result
      = .error err := by rw [hfind]
  have hmsg : errMsg err = "<ERROR>" := by
    simp [errMsg, ParseGroupVersion_error_notFound hparse]
  refine ⟨hfind, updateFile_of_read hread, ?_, ?_, ?_⟩
  · intro hw
    obtain ⟨w1, h1⟩ := afterLoop_ok_of_writable us
      (loopAt config file ac w table us us.OwnerReferences) hw
    exact ⟨_, by rw [updateFile_of_read hread, h1]⟩
  · rw [hrefs, loopAt_split, loopBody_error hfail, hmsg]
    simp [LoopState.onto]
  · rw [hrefs, loopAt_split, loopBody_error hfail]
    simp only [LoopState.onto, List.append_assoc, List.singleton_append]
    rw [List.getElem?_append_right (by rw [loopAt_refs_length])]
    simp [loopAt_refs_length]

/-! ## A second run -/

theorem loopBody_fresh_refs (fileName : String) (ac : ApiClient) (us : Unstructured)
    (owners : Owners) (ref : OwnerReference) :
    ∃ ref2, (loopBody fileName ac us (LoopState.fresh owners) ref).refs = [ref2] ∧
      ref2.APIVersion = ref.APIVersion ∧ ref2.Kind = ref.Kind ∧ ref2.Name = ref.Name ∧
      ∀ owner, (findOwner ac owners ref us).result = .ok owner → ref2.UID = owner.UID := by
  cases hres : (findOwner ac owners ref us).result with
  | error err =>
    refine ⟨ref, ?_, rfl, rfl, rfl, ?_⟩
    · rw [@loopBody_error fileName ac us (LoopState.fresh owners) ref err hres]; rfl
    · intro owner h; cases h
  | ok owner =>
    by_cases hu : ref.UID = owner.UID
    · refine ⟨ref, ?_, rfl, rfl, rfl, ?_⟩
      · rw [@loopBody_ok_eq fileName ac us (LoopState.fresh owners) ref owner hres hu]; rfl
      · intro owner2 h; cases h; exact hu
    · refine ⟨{ ref with UID := owner.UID }, ?_, rfl, rfl, rfl, ?_⟩
      · rw [@loopBody_ok_ne fileName ac us (LoopState.fresh owners) ref owner hres hu]; rfl
      · intro owner2 h; cases h; rfl

theorem loopBody_unchanged (fileName : String) (ac : ApiClient) (us : Unstructured)
    (st : LoopState) (ref : OwnerReference)
    (h : ∀ owner, (findOwner ac st.owners ref us).result = .ok owner → ref.UID = owner.UID) :
    (loopBody fileName ac us st ref).changed = st.changed := by
  cases hres : (findOwner ac st.owners ref us).result with
  | error err => rw [loopBody_error hres]
  | ok owner => rw [loopBody_ok_eq hres (h owner hres)]

/-- Running the loop again over the references it left, for an object of the
same namespace, changes nothing and builds the same map. -/
theorem rangeRefs_second_pass (fileName : String) (ac : ApiClient) (us us2 : Unstructured)
    (hns : us.Namespace = us2.Namespace) (refs : List OwnerReference) (owners : Owners) :
    (rangeRefs fileName ac us2
        (rangeRefs fileName ac us refs (LoopState.fresh owners)).refs
        (LoopState.fresh owners)).changed = false ∧
    (rangeRefs fileName ac us2
        (rangeRefs fileName ac us refs (LoopState.fresh owners)).refs
        (LoopState.fresh owners)).owners =
      (rangeRefs fileName ac us refs (LoopState.fresh owners)).owners := by
  induction refs generalizing owners with
  | nil => exact ⟨rfl, rfl⟩
  | cons ref rest ih =>
    obtain ⟨ref2, hrefs2, ha, hk, hn, huid⟩ := loopBody_fresh_refs fileName ac us owners ref
    have hfind : findOwner ac owners ref2 us2 = findOwner ac owners ref us :=
      findOwner_congr ac owners ha hk hn hns.symm
    have hown1 : (loopBody fileName ac us (LoopState.fresh owners) ref).owners =
        (findOwner ac owners ref us).owners := loopBody_owners ..
    have hown2 : (loopBody fileName ac us2 (LoopState.fresh owners) ref2).owners =
        (findOwner ac owners ref us).owners := by
      rw [loopBody_owners]; exact congrArg Found.owners hfind
    have hch2 : (loopBody fileName ac us2 (LoopState.fresh owners) ref2).changed = false := by
      rw [loopBody_unchanged]
      · rfl
      · intro owner h
        have h2 : (findOwner ac owners ref2 us2).result = .ok owner := h
        rw [hfind] at h2
        exact huid owner h2
    have hfirst : rangeRefs fileName ac us (ref :: rest) (LoopState.fresh owners) =
        (loopBody fileName ac us (LoopState.fresh owners) ref).onto
          (rangeRefs fileName ac us rest
            (LoopState.fresh (findOwner ac owners ref us).owners)) := by
      simp only [rangeRefs]
      rw [rangeRefs_onto, hown1]
    have hout : (rangeRefs fileName ac us (ref :: rest) (LoopState.fresh owners)).refs =
        ref2 :: (rangeRefs fileName ac us rest
          (LoopState.fresh (findOwner ac owners ref us).owners)).refs := by
      rw [hfirst]; simp [LoopState.onto, hrefs2]
    have hfo : (rangeRefs fileName ac us (ref :: rest) (LoopState.fresh owners)).owners =
        (rangeRefs fileName ac us rest
          (LoopState.fresh (findOwner ac owners ref us).owners)).owners := by
      rw [hfirst]; rfl
    rw [hfo, hout]
    simp only [rangeRefs]
    rw [rangeRefs_onto, hown2]
    obtain ⟨ih1, ih2⟩ := ih (findOwner ac owners ref us).owners
    constructor
    · simp only [LoopState.onto, hch2, ih1]; rfl
    · simp only [LoopState.onto]
      exact ih2

/-- When the loop leaves `changed` unset, every row it recorded is the row of a
reference whose resolution fails. -/
theorem rangeRefs_unchanged_rows (fileName : String) (ac : ApiClient) (us : Unstructured)
    (refs : List OwnerReference) (owners : Owners)
    (h : (rangeRefs fileName ac us refs (LoopState.fresh owners)).changed = false) :
    ∀ row ∈ (rangeRefs fileName ac us refs (LoopState.fresh owners)).table,
      ∃ ref ∈ refs, ∃ err, (findOwner ac [] ref us).result = .error err ∧
        row = [fileName, ref.Kind, ref.Name, ref.UID, errMsg err] := by
  induction refs generalizing owners with
  | nil => intro row hrow; simp [rangeRefs, LoopState.fresh] at hrow
  | cons ref rest ih =>
    have hsplit : rangeRefs fileName ac us (ref :: rest) (LoopState.fresh owners) =
        (loopBody fileName ac us (LoopState.fresh owners) ref).onto
          (rangeRefs fileName ac us rest
            (LoopState.fresh (loopBody fileName ac us (LoopState.fresh owners) ref).owners)) := by
      simp only [rangeRefs]
      rw [rangeRefs_onto]
    rw [hsplit] at h ⊢
    simp only [LoopState.onto, Bool.or_eq_false_iff] at h
    obtain ⟨h1, h2⟩ := h
    intro row hrow
    simp only [LoopState.onto, List.mem_append] at hrow
    rcases hrow with hrow | hrow
    · cases hres : (findOwner ac owners ref us).result with
      | error err =>
        rw [@loopBody_error fileName ac us (LoopState.fresh owners) ref err hres] at hrow
        simp [LoopState.fresh] at hrow
        refine ⟨ref, List.mem_cons_self _ _, err, ?_, hrow⟩
        rw [← findOwner_miss_result (findOwner_error_miss hres)]
        exact hres
      | ok owner =>
        by_cases hu : ref.UID = owner.UID
        · rw [@loopBody_ok_eq fileName ac us (LoopState.fresh owners) ref owner hres hu] at hrow
          simp [LoopState.fresh] at hrow
        · rw [@loopBody_ok_ne fileName ac us (LoopState.fresh owners) ref owner hres hu] at h1
          simp at h1
    · obtain ⟨r, hr, err, he, hrow2⟩ := ih _ h2 row hrow
      exact ⟨r, List.mem_cons_of_mem _ hr, err, he, hrow2⟩

theorem loopAt_eq_onto (config : Config) (file : String) (ac : ApiClient) (w : World)
    (table : Table) (us : Unstructured) (refs : List OwnerReference) :
    loopAt config file ac w table us refs =
      (loopInit w table).onto
        (rangeRefs (fileNameOf config file) ac us refs (LoopState.fresh [])) := by
  rw [loopAt, rangeRefs_onto]; rfl

/-- After a successful `updateFile` the file is settled, the other files are as
they were, and the walk and the write errors are those of before. -/
theorem updateFile_settles {config : Config} {file : String} {ac : ApiClient}
    {w w1 : World} {table table1 : Table}
    (h : updateFile config file ac w table = .ok (w1, table1)) :
    Settled config ac w1.disk file ∧ (∀ g, g ≠ file → w1.disk g = w.disk g) ∧
      w1.tree = w.tree ∧ w1.writeErr = w.writeErr := by
  cases hread : read w file with
  | error err => simp [updateFile, hread] at h
  | ok us =>
    rw [updateFile_of_read hread, loopAt_eq_onto] at h
    unfold afterLoop at h
    split at h
    · rename_i hch
      cases hwe : w.writeErr file (us.SetOwnerReferences ((loopInit w table).onto
          (rangeRefs (fileNameOf config file) ac us us.OwnerReferences
            (LoopState.fresh []))).refs) with
      | some err => simp [write, hwe] at h
      | none =>
        simp only [write, hwe] at h
        cases h
        refine ⟨⟨_, if_pos rfl, ?_⟩, ?_, rfl, rfl⟩
        · have hsec := (rangeRefs_second_pass (fileNameOf config file) ac us
            (us.SetOwnerReferences (rangeRefs (fileNameOf config file) ac us
              us.OwnerReferences (LoopState.fresh [])).refs) rfl us.OwnerReferences []).1
          simpa [LoopState.onto, loopInit, Unstructured.SetOwnerReferences] using hsec
        · intro g hg
          simp [hg]
    · rename_i hch
      cases h
      refine ⟨⟨us, hread, ?_⟩, fun _ _ => rfl, rfl, rfl⟩
      simpa [LoopState.onto, loopInit] using hch

theorem Settled_of_updateFile {config : Config} {file : String} {ac : ApiClient}
    {w w1 : World} {table table1 : Table}
    (h : updateFile config file ac w table = .ok (w1, table1)) (g : String)
    (hg : Settled config ac w.disk g) : Settled config ac w1.disk g := by
  obtain ⟨hs, hd, _, _⟩ := updateFile_settles h
  by_cases hgf : g = file
  · rw [hgf]; exact hs
  · obtain ⟨us, h1, h2⟩ := hg
    exact ⟨us, (hd g hgf).trans h1, h2⟩

/-- After a successful run of the file loop every file it visited is settled. -/
theorem rangeFiles_settles {config : Config} {ac : ApiClient} (files : List String)
    {w w1 : World} {table table1 : Table}
    (h : rangeFiles config ac files w table = .ok (w1, table1)) :
    (∀ g ∈ files, Settled config ac w1.disk g) ∧
      (∀ g, Settled config ac w.disk g → Settled config ac w1.disk g) ∧
      w1.tree = w.tree ∧ w1.writeErr = w.writeErr := by
  induction files generalizing w table with
  | nil =>
    simp only [rangeFiles] at h
    cases h
    exact ⟨fun g hg => absurd hg (List.not_mem_nil g), fun _ hg => hg, rfl, rfl⟩
  | cons file rest ih =>
    simp only [rangeFiles] at h
    cases hup : updateFile config file ac w table with
    | error err => rw [hup] at h; cases h
    | ok r =>
      obtain ⟨wf, tablef⟩ := r
      rw [hup] at h
      obtain ⟨ih1, ih2, ih3, ih4⟩ := ih h
      obtain ⟨hs, _, ht, he⟩ := updateFile_settles hup
      refine ⟨?_, fun g hg => ih2 g (Settled_of_updateFile hup g hg), ih3.trans ht,
        ih4.trans he⟩
      intro g hg
      rcases List.mem_cons.1 hg with rfl | hg
      · exact ih2 _ hs
      · exact ih1 g hg

/-- Over settled files the file loop succeeds without writing, and every row it
adds is the row of a reference whose resolution fails. -/
theorem rangeFiles_of_settled (config : Config) (ac : ApiClient) (files : List String)
    (w : World) (table : Table) (hs : ∀ g ∈ files, Settled config ac w.disk g) :
    ∃ w2 table2, rangeFiles config ac files w table = .ok (w2, table2) ∧
      w2.disk = w.disk ∧ w2.writes = w.writes ∧
      ∀ row ∈ table2, row ∈ table ∨
        ∃ file ∈ files, ∃ us, w.disk file = .ok us ∧ ∃ ref ∈ us.OwnerReferences, ∃ err,
          (findOwner ac [] ref us).result = .error err ∧
          row = [fileNameOf config file, ref.Kind, ref.Name, ref.UID, errMsg err] := by
  induction files generalizing w table with
  | nil => exact ⟨w, table, rfl, rfl, rfl, fun row hrow => Or.inl hrow⟩
  | cons file rest ih =>
    obtain ⟨us, hdisk, hch⟩ := hs file (List.mem_cons_self _ _)
    have hread : read w file = .ok us := hdisk
    have hup : updateFile config file ac w table =
        .ok ({ w with calls := (loopAt config file ac w table us us.OwnerReferences).calls },
          table ++ (rangeRefs (fileNameOf config file) ac us us.OwnerReferences
            (LoopState.fresh [])).table) := by
      rw [updateFile_of_read hread, loopAt_eq_onto]
      simp [afterLoop, LoopState.onto, loopInit, hch]
    obtain ⟨w2, table2, h2, hd, hw, hrows⟩ :=
      ih { w with calls := (loopAt config file ac w table us us.OwnerReferences).calls }
        (table ++ (rangeRefs (fileNameOf config file) ac us us.OwnerReferences
            (LoopState.fresh [])).table)
        (fun g hg => hs g (List.mem_cons_of_mem _ hg))
    refine ⟨w2, table2, ?_, hd, hw, ?_⟩
    · simp only [rangeFiles, hup]
      exact h2
    · intro row hrow
      rcases hrows row hrow with hin | ⟨g, hg, us2, hd2, ref, href, err, he, hr⟩
      · rcases List.mem_append.1 hin with hin | hin
        · exact Or.inl hin
        · obtain ⟨ref, href, err, he, hr⟩ :=
            rangeRefs_unchanged_rows _ ac us us.OwnerReferences [] hch row hin
          exact Or.inr ⟨file, List.mem_cons_self _ _, us, hdisk, ref, href, err, he, hr⟩
      · exact Or.inr ⟨g, List.mem_cons_of_mem _ hg, us2, hd2, ref, href, err, he, hr⟩

/-- C4, as the code has it. When a run of Update has completed, a second run
over the resulting file tree against the same remote state completes too, writes
no file and leaves every file as it is; it records no correction, only, once
more, the rows of the references whose resolution fails: every row of the
second run is (file name, kind, name, recorded uid, marker) for a reference of a
visited file whose resolution fails. When no resolution fails the second run
has no rows and prints that nothing changed. -/
theorem Update_second_run (config : Config) (ac : ApiClient) (w w1 : World)
    (out1 : Console) (hac : config.NewApiClient = .ok ac)
    (h1 : Update config w = .ok (w1, out1)) :
    ∃ w2 out2, Update config w1 = .ok (w2, out2) ∧
      w2.writes = w1.writes ∧ w2.disk = w1.disk ∧
      (∀ row ∈ out2.rows, ∃ entries, w1.tree = .ok entries ∧
        ∃ file ∈ walkFiles config entries, ∃ us, w1.disk file = .ok us ∧
        ∃ ref ∈ us.OwnerReferences, ∃ err,
          (findOwner ac [] ref us).result = .error err ∧
          row = [fileNameOf config file, ref.Kind, ref.Name, ref.UID, errMsg err]) ∧
      ((∀ file us, w1.disk file = .ok us → ∀ ref ∈ us.OwnerReferences, ∀ err,
          (findOwner ac [] ref us).result ≠ .error err) →
        out2 = .noChanges) := by
  unfold Update at h1
  cases hv : config.Validate with
  | some err => simp [hv] at h1
  | none =>
    cases ht : w.tree with
    | error err => simp [hv, ht] at h1
    | ok entries =>
      simp only [hv, ht, hac] at h1
      cases hr : rangeFiles config ac (walkFiles config entries) w [] with
      | error err => simp [hr] at h1
      | ok r =>
        obtain ⟨wa, tablea⟩ := r
        have hw1 : w1 = wa := by
          rw [hr] at h1
          simp only at h1
          split at h1 <;> cases h1 <;> rfl
        subst hw1
        obtain ⟨hset, _, htree, _⟩ := rangeFiles_settles _ hr
        obtain ⟨w2, table2, h2, hd, hwr, hrows⟩ :=
          rangeFiles_of_settled config ac (walkFiles config entries) w1 [] hset
        have hrows2 : ∀ row ∈ table2, ∃ entries, w1.tree = .ok entries ∧
            ∃ file ∈ walkFiles config entries, ∃ us, w1.disk file = .ok us ∧
            ∃ ref ∈ us.OwnerReferences, ∃ err,
              (findOwner ac [] ref us).result = .error err ∧
              row = [fileNameOf config file, ref.Kind, ref.Name, ref.UID, errMsg err] := by
          intro row hrow
          rcases hrows row hrow with hin | hex
          · cases hin
          · exact ⟨entries, htree.trans ht, hex⟩
        have hup : Update config w1 =
            if table2.NumLines = 0 then .ok (w2, .noChanges)
            else .ok (w2, .rendered ["File", "Owner Kind", "Owner Name", "UID From", "UID To"]
              table2) := by
          unfold Update
          simp only [hv, htree, ht, hac, h2]
        by_cases hn : table2.NumLines = 0
        · refine ⟨w2, .noChanges, by rw [hup, if_pos hn], hwr, hd, ?_, fun _ => rfl⟩
          intro row hrow
          cases hrow
        · refine ⟨w2, .rendered ["File", "Owner Kind", "Owner Name", "UID From", "UID To"]
            table2, by rw [hup, if_neg hn], hwr, hd, hrows2, ?_⟩
          intro hnone
          exfalso
          cases htab : table2 with
          | nil => rw [htab] at hn; exact hn rfl
          | cons row rest =>
            obtain ⟨_, _, file, _, us, hdu, ref, href, err, he, _⟩ :=
              hrows2 row (by rw [htab]; exact List.mem_cons_self _ _)
            exact hnone file us hdu ref href err he

/-! ## The claims on concrete inputs -/

/-- C1 fails as stated: in a run over two files of namespace ns1 that both refer
to the ReplicaSet apps/v1 rs-a, the remote fetch of that owner is made twice,
once for each file. -/
theorem owner_fetched_once_per_file :
    (Update demoConfig twoPodsWorld).toOption.map
        (fun r => r.1.calls.count
          (RemoteCall.get { Group := "apps", Version := "v1", Resource := "replicasets" }
            "ns1" "rs-a")) = some 2 := by
  decide

/-- In twice.yaml the third reference repeats the first: it is answered from the map
without a remote call. -/
theorem findOwner_cached_within_file_witness :
    (findOwner demoClient
      (loopAt demoConfig "out/twice.yaml" demoClient twiceWorld [] twiceDoc
        [podRef, thirdRef]).owners podRef twiceDoc).calls = [] :=
  congrArg Found.calls
    (findOwner_cached_within_file demoConfig "out/twice.yaml" demoClient twiceWorld []
      twiceDoc [] [thirdRef] [] podRef podRef (live "new-uid") rfl rfl rfl rfl).1

/-- C2 fails as stated: the apiVersion "apps/v1/beta" does not parse, and the run
over a file holding a reference with it completes; the reference gets an
"<ERROR>" row, and the next reference and the next file are processed. -/
theorem malformed_apiVersion_not_fatal :
    schema.ParseGroupVersion malformedRef.APIVersion = .error malformedErr ∧
    (Update demoConfig malformedWorld).toOption.map (fun r => r.2.rows) =
      some [["bad.yaml", "ReplicaSet", "rs-a", "old-uid", "<ERROR>"],
            ["bad.yaml", "ReplicaSet", "rs-c", "old-c", "uid-c"],
            ["pod.yaml", "ReplicaSet", "rs-a", "old-uid", "new-uid"]] :=
  ⟨rfl, by decide⟩

/-- In bad.yaml the reference with apiVersion "apps/v1/beta" gets the "<ERROR>" row
and the reference after it is corrected. -/
theorem updateFile_malformed_apiVersion_witness :
    (loopAt demoConfig "out/bad.yaml" demoClient malformedWorld []
        (exported [malformedRef, thirdRef]) [malformedRef, thirdRef]).table =
      [["bad.yaml", "ReplicaSet", "rs-a", "old-uid", "<ERROR>"],
       ["bad.yaml", "ReplicaSet", "rs-c", "old-c", "uid-c"]] :=
  (updateFile_malformed_apiVersion demoConfig "out/bad.yaml" demoClient malformedWorld []
    (exported [malformedRef, thirdRef]) [] [thirdRef] malformedRef malformedErr
    rfl rfl rfl rfl).2.2.2.1

/-- C3 fails as stated: with the target written "out/", the walk hands over the
path "out/pod.yaml", in which "out//" does not occur, and the row of the
corrected reference carries the whole path "out/pod.yaml", not the file name
relative to the root, "pod.yaml". -/
theorem row_file_name_keeps_unclean_target :
    (Update slashConfig slashWorld).toOption.map (fun r => r.2.rows) =
      some [["out/pod.yaml", "ReplicaSet", "rs-a", "old-uid", "new-uid"]] ∧
    fileNameOf slashConfig "out/pod.yaml" ≠ "pod.yaml" :=
  ⟨by decide, by decide⟩

/-- The end-to-end scenario: pod.yaml in ns1 with ReplicaSet apps/v1 rs-a recorded
as "old-uid" and live as "new-uid" yields exactly one row. -/
theorem updateFile_corrects_uid_witness :
    read podWorld "out/pod.yaml" = .ok podDoc ∧
    (loopAt demoConfig "out/pod.yaml" demoClient podWorld [] podDoc
        podDoc.OwnerReferences).table =
      [["pod.yaml", "ReplicaSet", "rs-a", "old-uid", "new-uid"]] :=
  ⟨rfl, (updateFile_corrects_uid demoConfig "out/pod.yaml" demoClient podWorld [] podDoc
    [] [] podRef (live "new-uid") rfl rfl rfl (by decide)).1⟩

/-- C4 fails as stated: the only owner of gone.yaml does not exist remotely, and
the second of two runs in a row records the same "<NOT FOUND>" row again. -/
theorem second_run_repeats_unresolved_rows :
    ((Update demoConfig goneWorld).toOption.bind
        (fun r => (Update demoConfig r.1).toOption)).map (fun r => r.2.rows) =
      some [["gone.yaml", "ReplicaSet", "rs-gone", "uid-b", "<NOT FOUND>"]] := by
  decide

/-- After the run that rewrote pod.yaml, a second run writes nothing and reports
that nothing changed. -/
theorem Update_second_run_witness :
    ∃ w2 out2, Update demoConfig podWorldAfter = .ok (w2, out2) ∧
      w2.writes = podWorldAfter.writes ∧ out2 = .noChanges := by
  obtain ⟨w2, out2, h, hw, _, hrows, _⟩ :=
    Update_second_run demoConfig demoClient podWorld podWorldAfter
      (.rendered ["File", "Owner Kind", "Owner Name", "UID From", "UID To"]
        [["pod.yaml", "ReplicaSet", "rs-a", "old-uid", "new-uid"]]) rfl rfl
  refine ⟨w2, out2, h, hw, ?_⟩
  have h2 : Update demoConfig podWorldAfter = .ok (w2, out2) := h
  have h3 : ∃ w, Update demoConfig podWorldAfter = .ok (w, .noChanges) := ⟨_, rfl⟩
  obtain ⟨w, h3⟩ := h3
  rw [h3] at h2
  cases h2
  rfl

/-- C5, on the code. In web.yaml the references Deployment apps/v1 web and
StatefulSet apps/v1 web are both up to date. Resolving the StatefulSet by itself
gives the object of uid "uid-s"; in the loop of updateFile the lookup of the
StatefulSet is answered from the map with the Deployment fetched for the first
reference, of uid "uid-d", so the run reports a correction of the StatefulSet
reference from "uid-s" to "uid-d" and writes that uid to the file. -/
theorem findOwner_hit_ignores_kind :
    (findOwner demoClient [] statefulRef webDoc).result = .ok (live "uid-s") ∧
    (findOwner demoClient
      (loopAt demoConfig "out/web.yaml" demoClient webWorld [] webDoc [deployRef]).owners
      statefulRef webDoc).result = .ok (live "uid-d") ∧
    (Update demoConfig webWorld).toOption.map (fun r => (r.2.rows, r.1.writes)) =
      some ([["web.yaml", "StatefulSet", "web", "uid-s", "uid-d"]],
        [("out/web.yaml",
          exported [deployRef, { statefulRef with UID := "uid-d" }])]) :=
  ⟨rfl, rfl, by decide⟩

/-- The reference of pod.yaml is corrected, so updateFile does not return with the
write log and the disk as they were. -/
theorem updateFile_writes_iff_witness :
    ¬ ∃ w1 table1, updateFile demoConfig "out/pod.yaml" demoClient podWorld [] =
        .ok (w1, table1) ∧ w1.writes = podWorld.writes ∧ w1.disk = podWorld.disk :=
  fun h =>
    (updateFile_writes_iff demoConfig "out/pod.yaml" demoClient podWorld [] podDoc
      rfl).2.2.1.1 h ⟨[], podRef, [], live "new-uid", rfl, rfl, by decide⟩

/-- In three.yaml the owner of the second reference does not exist: updateFile
returns without error, and the flag changed is as for the file without it. -/
theorem updateFile_failure_isolated_witness :
    (∃ r, updateFile demoConfig "out/three.yaml" demoClient threeWorld [] = .ok r) ∧
    (loopAt demoConfig "out/three.yaml" demoClient threeWorld [] threeDoc
        ([podRef] ++ missingRef :: [thirdRef])).changed =
      (loopAt demoConfig "out/three.yaml" demoClient threeWorld [] threeDoc
        ([podRef] ++ [thirdRef])).changed :=
  ⟨(updateFile_failure_isolated demoConfig "out/three.yaml" demoClient threeWorld []
      threeDoc [podRef] [thirdRef] missingRef notFoundErr rfl rfl rfl).2.1 (fun _ => rfl),
   (updateFile_failure_isolated demoConfig "out/three.yaml" demoClient threeWorld []
      threeDoc [podRef] [thirdRef] missingRef notFoundErr rfl rfl rfl).2.2.2.1⟩

/-- In three.yaml the second reference gets the "<NOT FOUND>" row between the rows
of the first and the third. -/
theorem updateFile_unresolved_row_witness :
    (loopAt demoConfig "out/three.yaml" demoClient threeWorld [] threeDoc
        threeDoc.OwnerReferences).table =
      [["three.yaml", "ReplicaSet", "rs-a", "old-uid", "new-uid"],
       ["three.yaml", "ReplicaSet", "rs-gone", "uid-b", "<NOT FOUND>"],
       ["three.yaml", "ReplicaSet", "rs-c", "old-c", "uid-c"]] :=
  (updateFile_unresolved_row demoConfig "out/three.yaml" demoClient threeWorld []
    threeDoc [podRef] [thirdRef] missingRef notFoundErr rfl rfl rfl).2.1

/-- The rows of three.yaml, in the order of its references. -/
theorem report_rows_in_processing_order_witness :
    ∃ w1, updateFile demoConfig "out/three.yaml" demoClient threeWorld [] =
      .ok (w1, [["three.yaml", "ReplicaSet", "rs-a", "old-uid", "new-uid"],
        ["three.yaml", "ReplicaSet", "rs-gone", "uid-b", "<NOT FOUND>"],
        ["three.yaml", "ReplicaSet", "rs-c", "old-c", "uid-c"]]) :=
  ((report_rows_in_processing_order demoConfig demoClient).1 "out/three.yaml" threeWorld []
    threeDoc rfl).2 (fun _ => rfl)

/-- A hit on a bound key, a miss with a successful fetch, and a miss with a
not-found error. -/
theorem findOwner_cache_contract_witness :
    findOwner demoClient [(ownerKey podRef podDoc, live "new-uid")] podRef podDoc =
      { result := .ok (live "new-uid")
        owners := [(ownerKey podRef podDoc, live "new-uid")]
        calls := [] } ∧
    (findOwner demoClient [] podRef podDoc).owners =
      Owners.set [] (ownerKey podRef podDoc) (live "new-uid") ∧
    (findOwner demoClient [] missingRef goneDoc).owners = [] :=
  ⟨(findOwner_cache_contract demoClient [(ownerKey podRef podDoc, live "new-uid")]
      podRef podDoc).2.1 (live "new-uid") (by decide),
   ((findOwner_cache_contract demoClient [] podRef podDoc).2.2.1 (live "new-uid")
      rfl rfl).2.1,
   ((findOwner_cache_contract demoClient [] missingRef goneDoc).2.2.2 notFoundErr rfl).2.1⟩

end uor
